import Mathlib

/-!
Verification of the Cahn-Hilliard phase-field simulation
(`src/CahnHilliard.ipynb`).

The notebook integrates the 2D Cahn-Hilliard equation on an N×N grid with
periodic boundary conditions, an explicit finite-difference scheme, and two
per-step diagnostics.  We embed the numerical core shallowly:

* a field is a function `ZMod N → ZMod N → ℚ`, so that index arithmetic is
  automatically taken modulo N — exactly the wraparound semantics of the
  notebook's `np.roll`; values are exact rationals standing in for the
  notebook's double-precision floats (exact arithmetic);
* `np.roll(u, s, axis)` becomes `rollAxis0` / `rollAxis1`;
* the simulation loop body becomes `stepField` (field update) and
  `loopBody` / `simulate` (update plus diagnostic recording);
* the parameter cell's sequential assignments become the `Params` constants;
* the save/terminal-snapshot control flow, which evaluates Python names in
  the notebook's global scope, becomes `runSnapshots` over an explicit list
  of the names actually bound at that point.
-/

namespace CH

/-- A 2D scalar field on the N×N periodic grid.  Using `ZMod N` as the index
type makes every index expression implicitly reduced modulo N in both axes,
which is the periodic wraparound the notebook gets from `np.roll`. -/
def Field (N : ℕ) : Type := ZMod N → ZMod N → ℚ

/-- `np.roll(u, s, axis=0)`: element `(i, j)` of the result is
`u[(i - s) mod N, j]`. -/
def rollAxis0 {N : ℕ} (u : Field N) (s : ℤ) : Field N :=
  fun i j => u (i - (s : ZMod N)) j

/-- `np.roll(u, s, axis=1)`: element `(i, j)` of the result is
`u[i, (j - s) mod N]`. -/
def rollAxis1 {N : ℕ} (u : Field N) (s : ℤ) : Field N :=
  fun i j => u i (j - (s : ZMod N))

/-- The notebook's Laplacian with periodic boundary conditions:
`(np.roll(u,1,axis=0) + np.roll(u,-1,axis=0) + np.roll(u,1,axis=1)
  + np.roll(u,-1,axis=1) - 4*u) / h**2`. -/
def laplacian {N : ℕ} (u : Field N) (h : ℚ) : Field N :=
  fun i j =>
    (rollAxis0 u 1 i j + rollAxis0 u (-1) i j +
     rollAxis1 u 1 i j + rollAxis1 u (-1) i j - 4 * u i j) / h ^ 2

/-- Loop body, first statement: `dfdphi = A * (4 * phi**3 - 6 * phi**2 + 2 * phi)`. -/
def dfdphi {N : ℕ} (A : ℚ) (phi : Field N) : Field N :=
  fun i j => A * (4 * phi i j ^ 3 - 6 * phi i j ^ 2 + 2 * phi i j)

/-- Loop body: `chemical_potential = dfdphi - 2 * K * del2phi` where
`del2phi = laplacian(phi, h)`. -/
def chemical_potential {N : ℕ} (A K h : ℚ) (phi : Field N) : Field N :=
  fun i j => dfdphi A phi i j - 2 * K * laplacian phi h i j

/-- Loop body: `RHS = M * laplacian(chemical_potential, h)`. -/
def stepRHS {N : ℕ} (A K M h : ℚ) (phi : Field N) : Field N :=
  fun i j => M * laplacian (chemical_potential A K h phi) h i j

/-- Loop body: `phi = phi + dT * RHS` — the whole field update of one step. -/
def stepField {N : ℕ} (A K M dT h : ℚ) (phi : Field N) : Field N :=
  fun i j => phi i j + dT * stepRHS A K M h phi i j

/-- Diagnostic recorded each step: `np.sum(phi > 0.7) / (N**2)` — the number
of cells strictly above 0.7, normalized by N². -/
def volume_fraction_of {N : ℕ} [NeZero N] (phi : Field N) : ℚ :=
  (((Finset.univ : Finset (ZMod N × ZMod N)).filter
      (fun p => phi p.1 p.2 > 7/10)).card : ℚ) / (N ^ 2 : ℚ)

/-- Diagnostic recorded each step:
`np.sum(np.logical_and(phi > 0.3, phi < 0.7))` — the raw, unnormalized count
of cells strictly between 0.3 and 0.7. -/
def interfacial_area_of {N : ℕ} [NeZero N] (phi : Field N) : ℚ :=
  (((Finset.univ : Finset (ZMod N × ZMod N)).filter
      (fun p => 3/10 < phi p.1 p.2 ∧ phi p.1 p.2 < 7/10)).card : ℚ)

/-- One iteration of the simulation loop: update the field, then record the
two diagnostics, both computed on the *updated* field, one entry each. -/
def loopBody {N : ℕ} [NeZero N] (A K M dT h : ℚ)
    (st : Field N × List ℚ × List ℚ) : Field N × List ℚ × List ℚ :=
  let phi := stepField A K M dT h st.1
  (phi, st.2.1 ++ [volume_fraction_of phi], st.2.2 ++ [interfacial_area_of phi])

/-- The simulation loop run for `n` steps from initial field `phi0`:
returns the final field together with the `volume_fraction` and
`interfacial_area` series accumulated one entry per step. -/
def simulate {N : ℕ} [NeZero N] (A K M dT h : ℚ) (phi0 : Field N) :
    ℕ → Field N × List ℚ × List ℚ
  | 0 => (phi0, [], [])
  | n + 1 => loopBody A K M dT h (simulate A K M dT h phi0 n)

/-- Sum of a field over the whole N×N domain. -/
def fieldSum {N : ℕ} [NeZero N] (u : Field N) : ℚ :=
  ∑ i : ZMod N, ∑ j : ZMod N, u i j

/-- Periodic translation of a field by `(dx, dy)` with wraparound. -/
def translate {N : ℕ} (dx dy : ZMod N) (u : Field N) : Field N :=
  fun i j => u (i + dx) (j + dy)

namespace Params

/-- Parameter cell: `delta = 10`. -/
def delta : ℚ := 10

/-- Parameter cell: `sigma = 1.0e-19`. -/
def sigma : ℚ := 1 / 10 ^ 19

/-- Parameter cell: `A = 3 * sigma / delta` — the value the name `A` holds
*before* the later rescaling line `A = A * 10`. -/
def A_before_scale : ℚ := 3 * sigma / delta

/-- Parameter cell: `K = delta**2 * A`, evaluated while `A` still holds its
pre-rescale value `A_before_scale`. -/
def K : ℚ := delta ^ 2 * A_before_scale

/-- Parameter cell: `A = A * 10` — the value of `A` in scope afterwards,
hence the one the simulation loop reads. -/
def A : ℚ := A_before_scale * 10

/-- Parameter cell: `D = 1e9`. -/
def D : ℚ := 10 ^ 9

/-- Parameter cell: `M = D / (2 * A)`, evaluated after the rescale, so it
reads the post-rescale `A`. -/
def M : ℚ := D / (2 * A)

end Params

/-- The Python names bound in the notebook's global scope by the time the
terminal-snapshot branch after the loop runs (imports, parameter cell,
`laplacian` cell, initial-condition cell, and the simulation-loop cell).
The name `Beta` is never assigned anywhere in the notebook. -/
def notebookNames : List String :=
  ["np", "plt", "os", "time", "savemat",
   "delta", "sigma", "A", "K", "D", "M", "dT", "steps", "save_interval",
   "h", "N", "dir_name", "laplacian", "phi", "phi_max", "phi_min",
   "plot_filename", "t_index", "volume_fraction", "interfacial_area",
   "step", "dfdphi", "del2phi", "chemical_potential", "RHS"]

/-- Evaluating a Python name in the notebook's global scope: succeeds when
the name is bound, raises `NameError` otherwise. -/
def evalName (x : String) : Except String Unit :=
  if x ∈ notebookNames then Except.ok () else
    Except.error ("NameError: name " ++ x ++ " is not defined")

/-- The snapshot emissions of a run of `steps` steps, modelled from the
notebook's control flow: inside the loop a snapshot is emitted after every
step whose 1-based number satisfies `(step + 1) % save_interval == 0`;
after the loop, if `(step + 1) % save_interval != 0` (with `step + 1 =
steps`), the terminal branch runs, and its `plt.savefig` line formats the
file name `f'Beta_{Beta}_Final_{steps}Steps.png'`, which evaluates the
name `Beta` before anything is written.  The result is the list of 1-based
step numbers at which a snapshot was emitted, or the Python exception that
aborted the cell. -/
def runSnapshots (steps saveInterval : ℕ) : Except String (List ℕ) :=
  let loopSaves := (List.range steps).filterMap
    (fun step => if (step + 1) % saveInterval == 0 then some (step + 1) else none)
  if steps % saveInterval ≠ 0 then
    match evalName "Beta" with
    | Except.ok _ => Except.ok (loopSaves ++ [steps])
    | Except.error e => Except.error e
  else
    Except.ok loopSaves

/-- The `step()` operation written the way the spec words it (§4.2): the
chemical potential `μ = A·(4φ³ − 6φ² + 2φ) − 2K·Laplacian(φ, h)` is formed
from the bulk free-energy derivative and the first Laplacian, and the field
becomes `φ + dT·M·Laplacian(μ, h)`. -/
def stepSpec {N : ℕ} (A K M dT h : ℚ) (phi : Field N) : Field N :=
  fun i j =>
    phi i j + dT * M *
      laplacian (fun a b =>
        A * (4 * phi a b ^ 3 - 6 * phi a b ^ 2 + 2 * phi a b) -
          2 * K * laplacian phi h a b) h i j

/-- A concrete 2×2 sample field used by the witness theorems. -/
def sampleField2 : Field 2 := fun i j => (i.val : ℚ) + 2 * (j.val : ℚ)

/-- C1: for every N×N field `u` and every spacing `h > 0`, cell `(i, j)` of
the Laplacian equals
`(u[i+1,j] + u[i−1,j] + u[i,j+1] + u[i,j−1] − 4·u[i,j]) / h²`, every
neighbor index taken modulo N in both axes (the `ZMod N` index type). -/
theorem C1_laplacian_stencil (N : ℕ) (hN : 0 < N) (u : Field N) (h : ℚ)
    (hh : 0 < h) (i j : ZMod N) :
    laplacian u h i j =
      (u (i + 1) j + u (i - 1) j + u i (j + 1) + u i (j - 1) - 4 * u i j) / h ^ 2 := by
  simp only [laplacian, rollAxis0, rollAxis1, Int.cast_one, Int.cast_neg,
    sub_neg_eq_add]
  ring

/-- Witness for C1 at N = 2, h = 1, cell (0, 0). -/
theorem C1_laplacian_stencil_witness :
    0 < 2 ∧ (0 : ℚ) < 1 ∧
    laplacian sampleField2 1 0 0 =
      (sampleField2 (0 + 1) 0 + sampleField2 (0 - 1) 0 + sampleField2 0 (0 + 1) +
        sampleField2 0 (0 - 1) - 4 * sampleField2 0 0) / 1 ^ 2 :=
  ⟨by norm_num, by norm_num,
    C1_laplacian_stencil 2 (by norm_num) sampleField2 1 (by norm_num) 0 0⟩

/-- C2: one `step()` sends φ to `φ + dT·M·Laplacian(μ, h)` where
`μ = A·(4φ³ − 6φ² + 2φ) − 2K·Laplacian(φ, h)` — the loop body agrees with
the spec's formula (`stepSpec`) at every cell. -/
theorem C2_step_matches_spec {N : ℕ} (A K M dT h : ℚ) (phi : Field N) :
    stepField A K M dT h phi = stepSpec A K M dT h phi := by
  have harg : chemical_potential A K h phi =
      (fun a b => A * (4 * phi a b ^ 3 - 6 * phi a b ^ 2 + 2 * phi a b) -
        2 * K * laplacian phi h a b) := by
    funext a b
    simp only [chemical_potential, dfdphi]
  funext i j
  simp only [stepField, stepRHS, stepSpec, harg]
  ring

/-- C8: the Laplacian of a constant field is exactly zero in every cell,
for every N ≥ 1, h > 0 and constant c. -/
theorem C8_laplacian_const_zero (N : ℕ) (hN : 0 < N) (c h : ℚ) (hh : 0 < h)
    (i j : ZMod N) :
    laplacian (fun _ _ => c) h i j = 0 := by
  simp only [laplacian, rollAxis0, rollAxis1]
  have e : c + c + c + c - 4 * c = 0 := by ring
  rw [e, zero_div]

/-- Witness for C8 at N = 3, c = 5, h = 2, cell (1, 1). -/
theorem C8_laplacian_const_zero_witness :
    0 < 3 ∧ (0 : ℚ) < 2 ∧ laplacian (N := 3) (fun _ _ => 5) 2 1 1 = 0 :=
  ⟨by norm_num, by norm_num,
    C8_laplacian_const_zero 3 (by norm_num) 5 2 (by norm_num) 1 1⟩

/-- C10: at N = 1 every neighbor index aliases the cell itself under the
periodic wrap, so the Laplacian is exactly zero for every field and h > 0. -/
theorem C10_laplacian_size_one_zero (u : Field 1) (h : ℚ) (hh : 0 < h)
    (i j : ZMod 1) :
    laplacian u h i j = 0 := by
  simp only [laplacian, rollAxis0, rollAxis1]
  have e : ∀ a b : ZMod 1, u a b = u i j := fun a b => by
    rw [Subsingleton.elim a i, Subsingleton.elim b j]
  simp only [e]
  have e2 : u i j + u i j + u i j + u i j - 4 * u i j = 0 := by ring
  rw [e2, zero_div]

/-- Witness for C10 with the constant-5 1×1 field and h = 2. -/
theorem C10_laplacian_size_one_zero_witness :
    (0 : ℚ) < 2 ∧ laplacian (N := 1) (fun _ _ => 5) 2 0 0 = 0 :=
  ⟨by norm_num, C10_laplacian_size_one_zero (fun _ _ => 5) 2 (by norm_num) 0 0⟩

/-- C6: the parameter cell computes `K = delta² * A` from the pre-rescale
`A`, then rescales `A` by 10, then computes `M = D / (2A)` from the
post-rescale `A`; hence for the `A` actually used by the loop,
`K = delta²·A/10`, not the documented `K = delta²·A`. -/
theorem C6_K_uses_prescale_A :
    Params.K = Params.delta ^ 2 * Params.A / 10 ∧
    Params.M = Params.D / (2 * Params.A) ∧
    Params.K ≠ Params.delta ^ 2 * Params.A := by
  refine ⟨?_, rfl, ?_⟩ <;>
    norm_num [Params.K, Params.A, Params.A_before_scale, Params.delta,
      Params.sigma]

/-- C4: the run with 3 steps and save interval 2 reaches the terminal
snapshot branch (3 is not a multiple of 2), whose `plt.savefig` file name
references the never-assigned name `Beta`; the cell aborts with a
`NameError` and no terminal snapshot is emitted. -/
theorem C4_terminal_snapshot_nameerror :
    runSnapshots 3 2 = Except.error "NameError: name Beta is not defined" := by
  rfl

/-- Rolling along axis 0 permutes rows, so the domain sum is unchanged. -/
lemma fieldSum_rollAxis0 {N : ℕ} [NeZero N] (u : Field N) (s : ℤ) :
    fieldSum (rollAxis0 u s) = fieldSum u := by
  unfold fieldSum rollAxis0
  exact Fintype.sum_equiv (Equiv.subRight ((s : ZMod N))) _ _ (fun i => rfl)

/-- Rolling along axis 1 permutes each row, so the domain sum is unchanged. -/
lemma fieldSum_rollAxis1 {N : ℕ} [NeZero N] (u : Field N) (s : ℤ) :
    fieldSum (rollAxis1 u s) = fieldSum u := by
  unfold fieldSum rollAxis1
  refine Finset.sum_congr rfl (fun i _ => ?_)
  exact Fintype.sum_equiv (Equiv.subRight ((s : ZMod N))) _ _ (fun j => rfl)

/-- The periodic Laplacian of any field sums to zero over the full domain:
the four rolled copies each sum to the same total as the field itself. -/
lemma fieldSum_laplacian {N : ℕ} [NeZero N] (u : Field N) (h : ℚ) :
    fieldSum (laplacian u h) = 0 := by
  have e0 : ∀ s : ℤ, (∑ i : ZMod N, ∑ j : ZMod N, rollAxis0 u s i j) =
      ∑ i : ZMod N, ∑ j : ZMod N, u i j := fun s => fieldSum_rollAxis0 u s
  have e1 : ∀ s : ℤ, (∑ i : ZMod N, ∑ j : ZMod N, rollAxis1 u s i j) =
      ∑ i : ZMod N, ∑ j : ZMod N, u i j := fun s => fieldSum_rollAxis1 u s
  unfold fieldSum laplacian
  simp only [div_eq_mul_inv]
  simp only [← Finset.sum_mul]
  simp only [Finset.sum_sub_distrib, Finset.sum_add_distrib]
  rw [e0 1, e0 (-1), e1 1, e1 (-1)]
  have e4 : (∑ i : ZMod N, ∑ j : ZMod N, 4 * u i j) =
      4 * ∑ i : ZMod N, ∑ j : ZMod N, u i j := by
    simp [Finset.mul_sum]
  rw [e4]
  ring

/-- C3: one `step()` preserves the spatial sum of the field exactly (in
exact arithmetic): the update adds `dT·M·Laplacian(μ, h)`, and the periodic
Laplacian sums to zero over the domain. -/
theorem C3_step_conserves_sum {N : ℕ} [NeZero N] (A K M dT h : ℚ)
    (hh : 0 < h) (phi : Field N) :
    fieldSum (stepField A K M dT h phi) = fieldSum phi := by
  have hz := fieldSum_laplacian (chemical_potential A K h phi) h
  unfold fieldSum at hz ⊢
  unfold stepField stepRHS
  simp only [Finset.sum_add_distrib]
  have hpull : (∑ i : ZMod N, ∑ j : ZMod N,
      dT * (M * laplacian (chemical_potential A K h phi) h i j)) =
      dT * (M * ∑ i : ZMod N, ∑ j : ZMod N,
        laplacian (chemical_potential A K h phi) h i j) := by
    simp only [Finset.mul_sum]
  rw [hpull, hz, mul_zero, mul_zero, add_zero]

/-- Witness for C3 at N = 2, h = 1, on the sample field. -/
theorem C3_step_conserves_sum_witness :
    (0 : ℚ) < 1 ∧
    fieldSum (stepField (N := 2) 1 1 1 1 1 sampleField2) = fieldSum sampleField2 :=
  ⟨by norm_num, C3_step_conserves_sum 1 1 1 1 1 (by norm_num) sampleField2⟩

/-- Rolling along axis 0 commutes with periodic translation. -/
lemma rollAxis0_translate {N : ℕ} (u : Field N) (s : ℤ) (dx dy : ZMod N) :
    rollAxis0 (translate dx dy u) s = translate dx dy (rollAxis0 u s) := by
  funext i j
  simp only [rollAxis0, translate, sub_add_eq_add_sub]

/-- Rolling along axis 1 commutes with periodic translation. -/
lemma rollAxis1_translate {N : ℕ} (u : Field N) (s : ℤ) (dx dy : ZMod N) :
    rollAxis1 (translate dx dy u) s = translate dx dy (rollAxis1 u s) := by
  funext i j
  simp only [rollAxis1, translate, sub_add_eq_add_sub]

/-- C7: the Laplacian commutes with periodic translation by any (dx, dy):
translating the input translates the output identically. -/
theorem C7_laplacian_translation_invariant {N : ℕ} (u : Field N) (h : ℚ)
    (hh : 0 < h) (dx dy : ZMod N) :
    laplacian (translate dx dy u) h = translate dx dy (laplacian u h) := by
  funext i j
  simp only [laplacian, translate, rollAxis0, rollAxis1, sub_add_eq_add_sub]

/-- Witness for C7 at N = 2, h = 1, shift (1, 0), on the sample field. -/
theorem C7_laplacian_translation_invariant_witness :
    (0 : ℚ) < 1 ∧
    laplacian (translate 1 0 sampleField2) 1 =
      translate 1 0 (laplacian sampleField2 1) :=
  ⟨by norm_num,
    C7_laplacian_translation_invariant sampleField2 1 (by norm_num) 1 0⟩

/-- The field component of `simulate` is the n-fold iterate of the step. -/
lemma simulate_fst {N : ℕ} [NeZero N] (A K M dT h : ℚ) (phi0 : Field N)
    (n : ℕ) :
    (simulate A K M dT h phi0 n).1 = (stepField A K M dT h)^[n] phi0 := by
  induction n with
  | zero => rfl
  | succ n ih =>
    simp only [simulate, loopBody]
    rw [ih, Function.iterate_succ_apply']

/-- C5: after n steps, each diagnostic series has exactly one entry per
step, computed on the updated field of that step: entry k (0-based) is the
normalized count of cells with φ > 0.7 for the volume fraction, and the raw
count of cells with 0.3 < φ < 0.7 for the interfacial area, both of the
field after k + 1 steps. -/
theorem C5_diagnostic_series {N : ℕ} [NeZero N] (A K M dT h : ℚ)
    (phi0 : Field N) (n : ℕ) :
    (simulate A K M dT h phi0 n).2.1 =
      (List.range n).map
        (fun k => volume_fraction_of ((stepField A K M dT h)^[k + 1] phi0)) ∧
    (simulate A K M dT h phi0 n).2.2 =
      (List.range n).map
        (fun k => interfacial_area_of ((stepField A K M dT h)^[k + 1] phi0)) := by
  induction n with
  | zero => exact ⟨rfl, rfl⟩
  | succ n ih =>
    obtain ⟨ih1, ih2⟩ := ih
    have hf : stepField A K M dT h (simulate A K M dT h phi0 n).1 =
        (stepField A K M dT h)^[n + 1] phi0 := by
      rw [simulate_fst, Function.iterate_succ_apply']
    constructor
    · show (simulate A K M dT h phi0 n).2.1 ++
        [volume_fraction_of (stepField A K M dT h (simulate A K M dT h phi0 n).1)] =
        _
      rw [ih1, hf, List.range_succ, List.map_append]
      rfl
    · show (simulate A K M dT h phi0 n).2.2 ++
        [interfacial_area_of (stepField A K M dT h (simulate A K M dT h phi0 n).1)] =
        _
      rw [ih2, hf, List.range_succ, List.map_append]
      rfl

/-- Witness for C5 at N = 2, one step, on the sample field. -/
theorem C5_diagnostic_series_witness :
    (simulate (N := 2) 1 1 1 1 1 sampleField2 1).2.1 =
      (List.range 1).map
        (fun k => volume_fraction_of ((stepField (N := 2) 1 1 1 1 1)^[k + 1] sampleField2)) ∧
    (simulate (N := 2) 1 1 1 1 1 sampleField2 1).2.2 =
      (List.range 1).map
        (fun k => interfacial_area_of ((stepField (N := 2) 1 1 1 1 1)^[k + 1] sampleField2)) :=
  C5_diagnostic_series 1 1 1 1 1 sampleField2 1

/-- The all-zero field is a fixed point of the update at any parameters. -/
lemma stepField_zero {N : ℕ} (A K M dT : ℚ) :
    stepField (N := N) A K M dT 1 (fun _ _ => 0) = fun _ _ => 0 := by
  funext i j
  simp only [stepField, stepRHS, chemical_potential, dfdphi, laplacian,
    rollAxis0, rollAxis1]
  ring

/-- C9: with N = 4, h = 1 and the all-zero field, for any A, K, M, dT one
step leaves the field exactly all-zero and records volume fraction 0 and
interfacial count 0 for that step. -/
theorem C9_zero_field_fixed_point (A K M dT : ℚ) :
    stepField (N := 4) A K M dT 1 (fun _ _ => 0) = (fun _ _ => 0) ∧
    (simulate (N := 4) A K M dT 1 (fun _ _ => 0) 1).2.1 = [0] ∧
    (simulate (N := 4) A K M dT 1 (fun _ _ => 0) 1).2.2 = [0] := by
  have hz := stepField_zero (N := 4) A K M dT
  have hv : volume_fraction_of (N := 4) (fun _ _ => 0) = 0 := by
    unfold volume_fraction_of
    rw [Finset.filter_false_of_mem (fun x _ => by norm_num)]
    simp
  have hi : interfacial_area_of (N := 4) (fun _ _ => 0) = 0 := by
    unfold interfacial_area_of
    rw [Finset.filter_false_of_mem (fun x _ => by norm_num)]
    simp
  refine ⟨hz, ?_, ?_⟩
  · show [] ++ [volume_fraction_of (stepField (N := 4) A K M dT 1 (fun _ _ => 0))] = [0]
    rw [hz, hv]
    rfl
  · show [] ++ [interfacial_area_of (stepField (N := 4) A K M dT 1 (fun _ _ => 0))] = [0]
    rw [hz, hi]
    rfl

end CH
